import Mathlib

/-!
Verification of the range-negotiation, chunk-optimization and rate-limiting
core of the audio streaming route (`src/app/api/audio/stream/route.ts`).

The TypeScript code is shallowly embedded: JavaScript numbers are modelled as
`Int` (all quantities involved are integral and far below 2^53), the
`bytes=(\d*)-(\d*)` regular-expression search is modelled as an explicit
scanner over the character list of the header, and the process-wide
`rateLimitMap` (a JavaScript `Map`) is modelled as an insertion-ordered
association list that is threaded explicitly through the functions.
-/

namespace AudioStream

/-- A parsed byte range `{start, end}` as produced by `parseRange` /
consumed by `optimizeRange` in `route.ts`. -/
structure ByteRange where
  start : Int
  «end» : Int
deriving DecidableEq

/-- Numeric value of a decimal digit character (JS `parseInt` works on the
code points; `'0'` is 48). -/
def digitVal (c : Char) : Nat := c.toNat - 48

/-- Value of a decimal digit string, as computed by `parseInt(s, 10)` on a
string of digits. -/
def digitsToNat (l : List Char) : Nat :=
  l.foldl (fun n c => n * 10 + digitVal c) 0

/-- Greedy run of decimal digits: model of the regex fragment `(\d*)`.
Returns the maximal digit prefix and the rest. -/
def spanDigits : List Char → List Char × List Char
  | [] => ([], [])
  | c :: cs =>
    if c.isDigit then (c :: (spanDigits cs).1, (spanDigits cs).2)
    else ([], c :: cs)

/-- Model of matching the literal `bytes=` at the head of the input. -/
def stripBytes : List Char → Option (List Char)
  | 'b' :: 'y' :: 't' :: 'e' :: 's' :: '=' :: rest => some rest
  | _ => none

/-- After `bytes=` has been consumed, match `(\d*)-(\d*)`: a greedy digit
run, a literal `-`, and a second greedy digit run. -/
def matchAfterBytes (l : List Char) : Option (List Char × List Char) :=
  match (spanDigits l).2 with
  | '-' :: r2 => some ((spanDigits l).1, (spanDigits r2).1)
  | _ => none

/-- Model of `range.match(/bytes=(\d*)-(\d*)/)`: an unanchored search that
tries every start position in order and returns the two captured digit
groups of the first successful match. -/
def findMatch : List Char → Option (List Char × List Char)
  | [] => none
  | c :: cs =>
    match stripBytes (c :: cs) with
    | some rest =>
      match matchAfterBytes rest with
      | some r => some r
      | none => findMatch cs
    | none => findMatch cs

/-- `parseRange(range, fileSize)` from `route.ts`: match the header against
`bytes=(\d*)-(\d*)`; an empty first group defaults the start to `0`, an
empty second group defaults the end to `fileSize - 1`; reject when
`start >= fileSize || end >= fileSize || start > end`. -/
def parseRange (range : String) (fileSize : Int) : Option ByteRange :=
  match findMatch range.data with
  | none => none
  | some (g1, g2) =>
    let start : Int := if g1 = [] then 0 else (digitsToNat g1 : Int)
    let e : Int := if g2 = [] then fileSize - 1 else (digitsToNat g2 : Int)
    if start ≥ fileSize ∨ e ≥ fileSize ∨ start > e then none
    else some ⟨start, e⟩

/-- `optimizeRange(requestedRange, fileSize, isFirstRequest)` from
`route.ts`: on a genuine first request starting at byte 0 serve a tiered
initial chunk; otherwise expand a small request forward to the tier's
optimal chunk size unless it already reaches end-of-file. -/
def optimizeRange (requestedRange : ByteRange) (fileSize : Int)
    (isFirstRequest : Bool) : ByteRange :=
  if isFirstRequest = true ∧ requestedRange.start = 0 then
    let initialPlaybackSize : Int :=
      if fileSize < 5 * 1024 * 1024 then min (1024 * 1024) (fileSize - 1)
      else if fileSize < 15 * 1024 * 1024 then min (2 * 1024 * 1024) (fileSize - 1)
      else min (3 * 1024 * 1024) (fileSize - 1)
    ⟨0, initialPlaybackSize⟩
  else
    let requestedSize := requestedRange.«end» - requestedRange.start + 1
    let optimalChunkSize : Int :=
      if fileSize < 5 * 1024 * 1024 then 512 * 1024
      else if fileSize < 15 * 1024 * 1024 then 1024 * 1024
      else 1536 * 1024
    if requestedSize < optimalChunkSize ∧ requestedRange.«end» < fileSize - 1 then
      ⟨requestedRange.start, min (requestedRange.start + optimalChunkSize - 1) (fileSize - 1)⟩
    else requestedRange

example : parseRange "bytes=0-99" 1000 = some ⟨0, 99⟩ := by decide
example : parseRange "bytes=100-" 1000 = some ⟨100, 999⟩ := by decide
example : parseRange "bytes=-500" 1000 = some ⟨0, 500⟩ := by decide
example : parseRange "bytes=5000000-" 4194304 = none := by decide
example : parseRange "nonsense" 1000 = none := by decide
example : optimizeRange ⟨2097152, 2097663⟩ 4194304 false = ⟨2097152, 2621439⟩ := by decide
example : optimizeRange ⟨0, 4194303⟩ 4194304 true = ⟨0, 1048576⟩ := by decide

/-- The `Cache-Control` selection inlined in `GET` (`route.ts`): first
request on a file larger than 10MB gets a short revalidatable cache, any
other partial-content response gets the long immutable cache, and a full
small-file response gets the medium revalidatable cache. -/
def cacheControlOf (isFirstRequest : Bool) (fileSize : Int)
    (isPartialContent : Bool) : String :=
  if isFirstRequest = true ∧ fileSize > 10 * 1024 * 1024 then
    "public, max-age=7200, stale-while-revalidate=3600"
  else if isPartialContent = true then
    "public, max-age=31536000, immutable"
  else
    "public, max-age=86400, stale-while-revalidate=3600"

/-- The three-way Cache-Control table exactly as the specification words it
(spec section 4.4), used as the reference point for the refinement claim
about the cache policy. -/
def cachePolicyTable (isFirstRequest : Bool) (objectSize : Int)
    (isPartialContent : Bool) : String :=
  if isFirstRequest = true ∧ objectSize > 10 * 1024 * 1024 then
    "public, max-age=7200, stale-while-revalidate=3600"
  else if isPartialContent = true then
    "public, max-age=31536000, immutable"
  else
    "public, max-age=86400, stale-while-revalidate=3600"

/-- The decision content of one successful `GET` response: the served
range, the partial/first flags, the HTTP status, the chosen Cache-Control
value and the optional `X-Next-Range` prefetch hint. -/
structure StreamResult where
  served : ByteRange
  isPartialContent : Bool
  isFirstRequest : Bool
  status : Nat
  cacheControl : String
  nextRange : Option (Int × Int)
deriving DecidableEq

/-- Response assembly of `GET` (`route.ts` lines 184-243): content length,
status `206`/`200`, cache policy, and the `X-Next-Range` prefetch hint
`(end+1, min(end+1+contentLength-1, fileSize-1))` emitted when the response
is partial and bytes remain after the served end. -/
def mkResult (start e : Int) (isPartialContent isFirstRequest : Bool)
    (fileSize : Int) : StreamResult :=
  let contentLength := e - start + 1
  let nextRange : Option (Int × Int) :=
    if isPartialContent = true ∧ e < fileSize - 1 then
      some (e + 1, min (e + 1 + contentLength - 1) (fileSize - 1))
    else none
  { served := ⟨start, e⟩
    isPartialContent := isPartialContent
    isFirstRequest := isFirstRequest
    status := if isPartialContent = true then 206 else 200
    cacheControl := cacheControlOf isFirstRequest fileSize isPartialContent
    nextRange := nextRange }

/-- The pure range-negotiation core of `GET` (`route.ts` lines 137-243):
with a `Range` header, parse it (`none` models the 416 exit), flag the
request as first when it starts at byte 0, and optimize; without a header,
optimize `{0, fileSize-1}` as a first request and mark the response partial
when the optimized end stops short of end-of-file. -/
def streamPlan (rangeHeader : Option String) (fileSize : Int) :
    Option StreamResult :=
  match rangeHeader with
  | none =>
    let optimized := optimizeRange ⟨0, fileSize - 1⟩ fileSize true
    let isPartialContent := decide (optimized.«end» < fileSize - 1)
    some (mkResult optimized.start optimized.«end» isPartialContent true fileSize)
  | some rng =>
    match parseRange rng fileSize with
    | none => none
    | some parsedRange =>
      let isFirstRequest := decide (parsedRange.start = 0)
      let optimized := optimizeRange parsedRange fileSize isFirstRequest
      some (mkResult optimized.start optimized.«end» true isFirstRequest fileSize)

/-- Outcome of the `GET` handler, covering every terminal exit of
`route.ts`. -/
inductive GetResponse where
  | missingFile
  | metadataFailure
  | invalidRange
  | notFound
  | ok (r : StreamResult)
deriving DecidableEq

/-- HTTP status of each `GET` outcome. -/
def statusOf : GetResponse → Nat
  | .missingFile => 400
  | .metadataFailure => 500
  | .invalidRange => 416
  | .notFound => 404
  | .ok r => r.status

/-- An entry of the process-wide `rateLimitMap`: request count and window
expiry timestamp (milliseconds). -/
structure RateLimitEntry where
  count : Nat
  resetTime : Int
deriving DecidableEq

/-- The `rateLimitMap`: a JavaScript `Map` modelled as an insertion-ordered
association list. -/
abbrev RateMap := List (String × RateLimitEntry)

/-- `Map.get`: first entry with the given key. -/
def lookupEntry (identifier : String) : RateMap → Option RateLimitEntry
  | [] => none
  | kv :: rest => if kv.1 = identifier then some kv.2 else lookupEntry identifier rest

/-- `Map.set`: replace in place (keeping insertion order) when the key is
present, append otherwise. -/
def setEntry (identifier : String) (e : RateLimitEntry) : RateMap → RateMap
  | [] => [(identifier, e)]
  | kv :: rest =>
    if kv.1 = identifier then (identifier, e) :: rest
    else kv :: setEntry identifier e rest

/-- `cleanupRateLimit()` from `route.ts`: delete every entry whose
`resetTime` lies strictly in the past. -/
def cleanupRateLimit (now : Int) (m : RateMap) : RateMap :=
  m.filter fun kv => ! decide (now > kv.2.resetTime)

/-- `checkRateLimit(identifier)` from `route.ts`, with the ambient clock and
map made explicit: purge stale entries, then admit with a fresh
`{count: 1, resetTime: now + 60s}` entry on a missing or expired window,
reject without incrementing at 30 requests, and otherwise increment and
admit. Returns the admission flag and the updated map. -/
def checkRateLimit (identifier : String) (now : Int) (m : RateMap) :
    Bool × RateMap :=
  let m1 := cleanupRateLimit now m
  let windowMs : Int := 60 * 1000
  let maxRequests : Nat := 30
  match lookupEntry identifier m1 with
  | none => (true, setEntry identifier ⟨1, now + windowMs⟩ m1)
  | some current =>
    if now > current.resetTime then
      (true, setEntry identifier ⟨1, now + windowMs⟩ m1)
    else if current.count ≥ maxRequests then
      (false, m1)
    else
      (true, setEntry identifier ⟨current.count + 1, current.resetTime⟩ m1)

/-- Iterate `checkRateLimit` for one identifier over a list of call
timestamps, returning the admission results in order and the final map. -/
def runCalls (identifier : String) (ts : List Int) (m : RateMap) :
    List Bool × RateMap :=
  match ts with
  | [] => ([], m)
  | t :: rest =>
    let r := checkRateLimit identifier t m
    let tail := runCalls identifier rest r.2
    (r.1 :: tail.1, tail.2)

/-- The `GET` handler of `route.ts` as a function of its decision inputs:
the `file` query parameter, the storage metadata's `ContentLength` (absent
or `0` is falsy and yields the 500 exit), the `Range` header, whether the
storage range fetch returned a body, and the ambient rate-limit table. The
handler never consults the table, which is returned untouched. -/
def handleGET (fileName : Option String) (contentLength : Option Int)
    (rangeHeader : Option String) (bodyPresent : Bool) (rl : RateMap) :
    GetResponse × RateMap :=
  match fileName with
  | none => (.missingFile, rl)
  | some _ =>
    match contentLength with
    | none => (.metadataFailure, rl)
    | some fileSize =>
      if fileSize = 0 then (.metadataFailure, rl)
      else
        match streamPlan rangeHeader fileSize with
        | none => (.invalidRange, rl)
        | some r =>
          if bodyPresent = true then (.ok r, rl) else (.notFound, rl)

example :
    (checkRateLimit "a" 0 []).2 = [("a", ⟨1, 60000⟩)] := by decide

example :
    (runCalls "a" [0, 1, 2] []).1 = [true, true, true] := by decide

/-- A list whose head, if any, is not a decimal digit: the shapes at which
a greedy `(\d*)` stops. -/
def headNotDigit : List Char → Prop
  | [] => True
  | c :: _ => c.isDigit = false

/-- The exact header string `bytes=<d1>-<d2>` built from two digit groups
(either may be empty). -/
def rangeHeaderString (d1 d2 : List Char) : String :=
  ⟨'b' :: 'y' :: 't' :: 'e' :: 's' :: '=' :: (d1 ++ '-' :: d2)⟩

/-- Decimal digit list of a natural number, most significant digit first:
the digits JavaScript produces when interpolating a non-negative number
into the `X-Next-Range` template string. -/
def natDigits (n : Nat) : List Char :=
  if h : n < 10 then [Char.ofNat (48 + n)]
  else natDigits (n / 10) ++ [Char.ofNat (48 + n % 10)]
termination_by n
decreasing_by omega

/-- Decimal rendering of a JavaScript number known to be integral. -/
def intDecimal (n : Int) : List Char :=
  if n < 0 then '-' :: natDigits n.natAbs else natDigits n.toNat

/-- The `X-Next-Range` header value `bytes=<nextStart>-<nextEnd>` emitted by
the handler. -/
def nextRangeHeaderValue (ns ne : Int) : String :=
  ⟨'b' :: 'y' :: 't' :: 'e' :: 's' :: '=' :: (intDecimal ns ++ '-' :: intDecimal ne)⟩

lemma spanDigits_append (d rest : List Char) (hd : ∀ c ∈ d, c.isDigit = true)
    (hr : headNotDigit rest) : spanDigits (d ++ rest) = (d, rest) := by
  induction d with
  | nil =>
    cases rest with
    | nil => rfl
    | cons c cs =>
      simp only [headNotDigit] at hr
      simp [spanDigits, hr]
  | cons a d ih =>
    have ha : a.isDigit = true := hd a (by simp)
    have ih' := ih fun c hc => hd c (by simp [hc])
    simp [spanDigits, ha, ih']

lemma matchAfterBytes_digits (d1 d2 : List Char)
    (h1 : ∀ c ∈ d1, c.isDigit = true) (h2 : ∀ c ∈ d2, c.isDigit = true) :
    matchAfterBytes (d1 ++ '-' :: d2) = some (d1, d2) := by
  have hspan : spanDigits (d1 ++ '-' :: d2) = (d1, '-' :: d2) :=
    spanDigits_append d1 ('-' :: d2) h1 (by simp [headNotDigit])
  have hspan2 : spanDigits d2 = (d2, []) := by
    simpa using spanDigits_append d2 [] h2 trivial
  simp [matchAfterBytes, hspan, hspan2]

lemma findMatch_header (d1 d2 : List Char)
    (h1 : ∀ c ∈ d1, c.isDigit = true) (h2 : ∀ c ∈ d2, c.isDigit = true) :
    findMatch ('b' :: 'y' :: 't' :: 'e' :: 's' :: '=' :: (d1 ++ '-' :: d2)) =
      some (d1, d2) := by
  have hstrip :
      stripBytes ('b' :: 'y' :: 't' :: 'e' :: 's' :: '=' :: (d1 ++ '-' :: d2)) =
        some (d1 ++ '-' :: d2) := rfl
  unfold findMatch
  rw [hstrip]
  simp [matchAfterBytes_digits d1 d2 h1 h2]

/-- `parseRange` written out by cases on the regex match; definitional. -/
lemma parseRange_eq (s : String) (fs : Int) :
    parseRange s fs =
      match findMatch s.data with
      | none => none
      | some (g1, g2) =>
        let st : Int := if g1 = [] then 0 else (digitsToNat g1 : Int)
        let e : Int := if g2 = [] then fs - 1 else (digitsToNat g2 : Int)
        if st ≥ fs ∨ e ≥ fs ∨ st > e then none else some ⟨st, e⟩ := rfl

lemma parseRange_rangeHeaderString (d1 d2 : List Char) (fs : Int)
    (h1 : ∀ c ∈ d1, c.isDigit = true) (h2 : ∀ c ∈ d2, c.isDigit = true) :
    parseRange (rangeHeaderString d1 d2) fs =
      (let st : Int := if d1 = [] then 0 else (digitsToNat d1 : Int)
       let e : Int := if d2 = [] then fs - 1 else (digitsToNat d2 : Int)
       if st ≥ fs ∨ e ≥ fs ∨ st > e then none else some ⟨st, e⟩) := by
  rw [parseRange_eq]
  have hdata : (rangeHeaderString d1 d2).data =
      'b' :: 'y' :: 't' :: 'e' :: 's' :: '=' :: (d1 ++ '-' :: d2) := rfl
  rw [hdata, findMatch_header d1 d2 h1 h2]

lemma parseRange_some_bounds (s : String) (fs : Int) (r : ByteRange)
    (h : parseRange s fs = some r) :
    0 ≤ r.start ∧ r.start ≤ r.«end» ∧ r.«end» < fs := by
  rw [parseRange_eq] at h
  cases hm : findMatch s.data with
  | none => rw [hm] at h; exact absurd h (by simp)
  | some g =>
    obtain ⟨g1, g2⟩ := g
    rw [hm] at h
    simp only at h
    set st : Int := if g1 = [] then 0 else (digitsToNat g1 : Int) with hstdef
    set e : Int := if g2 = [] then fs - 1 else (digitsToNat g2 : Int) with hedef
    have hst0 : 0 ≤ st := by
      rw [hstdef]
      split_ifs <;> omega
    by_cases hcond : st ≥ fs ∨ e ≥ fs ∨ st > e
    · rw [if_pos hcond] at h
      exact absurd h (by simp)
    · rw [if_neg hcond] at h
      push_neg at hcond
      injection h with h
      subst h
      exact ⟨hst0, hcond.2.2, hcond.2.1⟩

lemma natDigits_isDigit (n : Nat) : ∀ c ∈ natDigits n, c.isDigit = true := by
  have hdig : ∀ k, k < 10 → (Char.ofNat (48 + k)).isDigit = true := by decide
  induction n using Nat.strong_induction_on with
  | _ n ih =>
    intro c hc
    by_cases h : n < 10
    · rw [natDigits, dif_pos h] at hc
      simp only [List.mem_singleton] at hc
      subst hc
      exact hdig n h
    · rw [natDigits, dif_neg h] at hc
      rcases List.mem_append.mp hc with hc1 | hc2
      · exact ih (n / 10) (by omega) c hc1
      · simp only [List.mem_singleton] at hc2
        subst hc2
        exact hdig (n % 10) (by omega)

lemma natDigits_ne_nil (n : Nat) : natDigits n ≠ [] := by
  rw [natDigits]
  split_ifs with h
  · simp
  · simp

lemma digitsToNat_natDigits (n : Nat) : digitsToNat (natDigits n) = n := by
  have hval : ∀ k, k < 10 → digitVal (Char.ofNat (48 + k)) = k := by decide
  induction n using Nat.strong_induction_on with
  | _ n ih =>
    by_cases h : n < 10
    · rw [natDigits, dif_pos h]
      simp [digitsToNat, hval n h]
    · rw [natDigits, dif_neg h]
      rw [digitsToNat, List.foldl_append]
      simp only [List.foldl_cons, List.foldl_nil]
      have hrec := ih (n / 10) (by omega)
      rw [digitsToNat] at hrec
      rw [hrec, hval (n % 10) (by omega)]
      omega

/-- Parsing back the exact header the prefetch hint would emit. -/
lemma parseRange_nextHeader (ns ne fs : Int)
    (h0 : 0 ≤ ns) (h1 : ns ≤ ne) (h2 : ne < fs) :
    parseRange (nextRangeHeaderValue ns ne) fs = some ⟨ns, ne⟩ := by
  have hns : intDecimal ns = natDigits ns.toNat := by
    rw [intDecimal, if_neg (by omega)]
  have hne : intDecimal ne = natDigits ne.toNat := by
    rw [intDecimal, if_neg (by omega)]
  have hhdr : nextRangeHeaderValue ns ne =
      rangeHeaderString (natDigits ns.toNat) (natDigits ne.toNat) := by
    rw [nextRangeHeaderValue, rangeHeaderString, hns, hne]
  rw [hhdr, parseRange_rangeHeaderString _ _ fs (natDigits_isDigit _) (natDigits_isDigit _)]
  have hv1 : ((digitsToNat (natDigits ns.toNat) : Nat) : Int) = ns := by
    rw [digitsToNat_natDigits]; omega
  have hv2 : ((digitsToNat (natDigits ne.toNat) : Nat) : Int) = ne := by
    rw [digitsToNat_natDigits]; omega
  simp only [if_neg (natDigits_ne_nil ns.toNat), if_neg (natDigits_ne_nil ne.toNat),
    hv1, hv2]
  rw [if_neg (by omega)]

lemma optimizeRange_bounds_aux (r : ByteRange) (fs : Int) (b : Bool)
    (h0 : 0 ≤ r.start) (h1 : r.start ≤ r.«end») (h2 : r.«end» ≤ fs - 1)
    (h3 : 0 < fs) :
    0 ≤ (optimizeRange r fs b).start ∧
    (optimizeRange r fs b).start ≤ (optimizeRange r fs b).«end» ∧
    (optimizeRange r fs b).«end» ≤ fs - 1 := by
  simp only [optimizeRange]
  split_ifs
  all_goals try dsimp only
  all_goals exact ⟨by omega, by omega, by omega⟩

lemma optimizeRange_steady_aux (r : ByteRange) (fs : Int) (b : Bool)
    (hsel : b = false ∨ r.start ≠ 0) (h1 : r.start ≤ r.«end») (h2 : r.«end» ≤ fs - 1) :
    (optimizeRange r fs b).start = r.start ∧
    r.«end» ≤ (optimizeRange r fs b).«end» ∧
    (optimizeRange r fs b).«end» ≤ fs - 1 ∧
    (r.«end» = fs - 1 → optimizeRange r fs b = r) := by
  have hcond : ¬ (b = true ∧ r.start = 0) := by
    rcases hsel with hb | hs
    · subst hb
      simp
    · intro hx
      exact hs hx.2
  simp only [optimizeRange, if_neg hcond]
  split_ifs
  all_goals try dsimp only
  all_goals
    exact ⟨rfl, by omega, by omega, by
      intro he
      first
      | rfl
      | exact absurd he (by omega)⟩

lemma lookupEntry_filter_pos {identifier : String} {e : RateLimitEntry}
    {p : String × RateLimitEntry → Bool} {m : RateMap}
    (h : lookupEntry identifier m = some e) (hp : p (identifier, e) = true) :
    lookupEntry identifier (m.filter p) = some e := by
  induction m with
  | nil => simp [lookupEntry] at h
  | cons kv rest ih =>
    obtain ⟨k, v⟩ := kv
    rw [lookupEntry] at h
    dsimp only at h
    by_cases hk : k = identifier
    · rw [if_pos hk] at h
      injection h with h
      subst hk h
      rw [List.filter_cons, if_pos (by simpa using hp)]
      rw [lookupEntry]
      simp
    · rw [if_neg hk] at h
      rw [List.filter_cons]
      split_ifs
      · rw [lookupEntry, if_neg hk]
        exact ih h
      · exact ih h

lemma lookupEntry_filter_none {identifier : String}
    {p : String × RateLimitEntry → Bool} {m : RateMap}
    (h : lookupEntry identifier m = none) :
    lookupEntry identifier (m.filter p) = none := by
  induction m with
  | nil => rfl
  | cons kv rest ih =>
    rw [lookupEntry] at h
    by_cases hk : kv.1 = identifier
    · rw [if_pos hk] at h
      exact absurd h (by simp)
    · rw [if_neg hk] at h
      rw [List.filter_cons]
      split_ifs
      · rw [lookupEntry, if_neg hk]
        exact ih h
      · exact ih h

lemma lookupEntry_none_of_not_mem {identifier : String} {m : RateMap}
    (h : identifier ∉ m.map Prod.fst) : lookupEntry identifier m = none := by
  induction m with
  | nil => rfl
  | cons kv rest ih =>
    simp only [List.map_cons, List.mem_cons] at h
    push_neg at h
    rw [lookupEntry, if_neg (Ne.symm h.1)]
    exact ih h.2

lemma lookupEntry_filter_stale {identifier : String} {e : RateLimitEntry}
    {p : String × RateLimitEntry → Bool} {m : RateMap}
    (hnd : (m.map Prod.fst).Nodup)
    (h : lookupEntry identifier m = some e) (hp : p (identifier, e) = false) :
    lookupEntry identifier (m.filter p) = none := by
  induction m with
  | nil => simp [lookupEntry] at h
  | cons kv rest ih =>
    obtain ⟨k, v⟩ := kv
    simp only [List.map_cons, List.nodup_cons] at hnd
    rw [lookupEntry] at h
    dsimp only at h
    by_cases hk : k = identifier
    · rw [if_pos hk] at h
      injection h with h
      subst hk h
      rw [List.filter_cons, if_neg (by simp [hp])]
      exact lookupEntry_filter_none (lookupEntry_none_of_not_mem hnd.1)
    · rw [if_neg hk] at h
      rw [List.filter_cons]
      split_ifs
      · rw [lookupEntry, if_neg hk]
        exact ih hnd.2 h
      · exact ih hnd.2 h

lemma lookupEntry_setEntry_self (identifier : String) (e : RateLimitEntry)
    (m : RateMap) :
    lookupEntry identifier (setEntry identifier e m) = some e := by
  induction m with
  | nil => simp [setEntry, lookupEntry]
  | cons kv rest ih =>
    rw [setEntry]
    by_cases hk : kv.1 = identifier
    · rw [if_pos hk, lookupEntry]
      simp
    · rw [if_neg hk, lookupEntry, if_neg hk]
      exact ih

lemma mem_setEntry {kv : String × RateLimitEntry} {identifier : String}
    {e : RateLimitEntry} {m : RateMap}
    (h : kv ∈ setEntry identifier e m) : kv = (identifier, e) ∨ kv ∈ m := by
  induction m with
  | nil =>
    rw [setEntry] at h
    simp only [List.mem_singleton] at h
    exact Or.inl h
  | cons kv' rest ih =>
    rw [setEntry] at h
    split_ifs at h with hk
    · rcases List.mem_cons.mp h with h1 | h2
      · exact Or.inl h1
      · exact Or.inr (List.mem_cons.mpr (Or.inr h2))
    · rcases List.mem_cons.mp h with h1 | h2
      · exact Or.inr (List.mem_cons.mpr (Or.inl h1))
      · rcases ih h2 with h3 | h4
        · exact Or.inl h3
        · exact Or.inr (List.mem_cons.mpr (Or.inr h4))

lemma mem_cleanup_le {now : Int} {m : RateMap} {kv : String × RateLimitEntry}
    (h : kv ∈ cleanupRateLimit now m) : now ≤ kv.2.resetTime := by
  rw [cleanupRateLimit] at h
  have := (List.mem_filter.mp h).2
  simp only [Bool.not_eq_true', decide_eq_false_iff_not, not_lt] at this
  exact this

lemma checkRateLimit_fresh {identifier : String} {now : Int} {m : RateMap}
    (h : lookupEntry identifier (cleanupRateLimit now m) = none) :
    checkRateLimit identifier now m =
      (true, setEntry identifier ⟨1, now + 60 * 1000⟩ (cleanupRateLimit now m)) := by
  simp only [checkRateLimit]
  rw [h]

lemma checkRateLimit_inwindow {identifier : String} {now : Int} {m : RateMap}
    {c : Nat} {rt : Int}
    (h : lookupEntry identifier (cleanupRateLimit now m) = some ⟨c, rt⟩)
    (hw : ¬ now > rt) :
    checkRateLimit identifier now m =
      if c ≥ 30 then (false, cleanupRateLimit now m)
      else (true, setEntry identifier ⟨c + 1, rt⟩ (cleanupRateLimit now m)) := by
  simp only [checkRateLimit]
  rw [h]
  dsimp only
  rw [if_neg hw]

lemma runCalls_window (identifier : String) (t0 : Int) :
    ∀ (ts : List Int) (m : RateMap) (c : Nat),
      1 ≤ c → c ≤ 30 →
      lookupEntry identifier m = some ⟨c, t0 + 60 * 1000⟩ →
      (∀ t ∈ ts, t0 ≤ t ∧ t ≤ t0 + 60 * 1000) →
      (runCalls identifier ts m).1 =
        (List.range ts.length).map (fun i => decide (c + i < 30)) ∧
      lookupEntry identifier (runCalls identifier ts m).2 =
        some ⟨min (c + ts.length) 30, t0 + 60 * 1000⟩ := by
  intro ts
  induction ts with
  | nil =>
    intro m c h1 h30 hm hts
    refine ⟨by simp [runCalls], ?_⟩
    simp only [runCalls, List.length_nil]
    rw [show min (c + 0) 30 = c by omega]
    exact hm
  | cons t ts ih =>
    intro m c h1 h30 hm hts
    have htw := hts t (List.mem_cons_self t ts)
    have hclean :
        lookupEntry identifier (cleanupRateLimit t m) = some ⟨c, t0 + 60 * 1000⟩ := by
      apply lookupEntry_filter_pos hm
      simp only [Bool.not_eq_true', decide_eq_false_iff_not]
      omega
    have htail : ∀ t' ∈ ts, t0 ≤ t' ∧ t' ≤ t0 + 60 * 1000 :=
      fun t' ht' => hts t' (List.mem_cons_of_mem _ ht')
    simp only [runCalls, List.length_cons]
    by_cases hc30 : c ≥ 30
    · have hc : c = 30 := by omega
      subst hc
      rw [checkRateLimit_inwindow hclean (by omega), if_pos (by omega)]
      dsimp only
      obtain ⟨ihr, ihm⟩ := ih (cleanupRateLimit t m) 30 (by omega) (by omega) hclean htail
      constructor
      · rw [ihr, List.range_succ_eq_map, List.map_cons, List.map_map]
        congr 1
        apply List.map_congr_left
        intro i hi
        simp only [Function.comp_apply]
        apply decide_eq_decide.mpr
        constructor <;> omega
      · rw [ihm, show min (30 + ts.length) 30 = min (30 + (ts.length + 1)) 30 by omega]
    · rw [checkRateLimit_inwindow hclean (by omega), if_neg hc30]
      dsimp only
      obtain ⟨ihr, ihm⟩ :=
        ih (setEntry identifier ⟨c + 1, t0 + 60 * 1000⟩ (cleanupRateLimit t m)) (c + 1)
          (by omega) (by omega) (lookupEntry_setEntry_self _ _ _) htail
      constructor
      · rw [ihr, List.range_succ_eq_map, List.map_cons, List.map_map]
        congr 1
        · exact (decide_eq_true (by omega : c + 0 < 30)).symm
        · apply List.map_congr_left
          intro i hi
          simp only [Function.comp_apply]
          apply decide_eq_decide.mpr
          constructor <;> omega
      · rw [ihm, show min (c + 1 + ts.length) 30 = min (c + (ts.length + 1)) 30 by omega]

lemma streamPlan_status (h : Option String) (fs : Int) (r : StreamResult)
    (hp : streamPlan h fs = some r) : r.status = 206 ∨ r.status = 200 := by
  cases h with
  | none =>
    simp only [streamPlan] at hp
    injection hp with hp
    subst hp
    simp only [mkResult]
    split_ifs <;> simp
  | some rng =>
    simp only [streamPlan] at hp
    cases hpr : parseRange rng fs with
    | none => rw [hpr] at hp; exact absurd hp (by simp)
    | some pr =>
      rw [hpr] at hp
      simp only at hp
      injection hp with hp
      subst hp
      simp only [mkResult]
      split_ifs <;> simp

lemma mkResult_nextRange_cond (a b : Int) (p f : Bool) (fs ns ne : Int)
    (hn : (mkResult a b p f fs).nextRange = some (ns, ne)) :
    b < fs - 1 ∧ ns = b + 1 ∧ ne = min (b + 1 + (b - a + 1) - 1) (fs - 1) := by
  simp only [mkResult] at hn
  split_ifs at hn with hc
  injection hn with hn
  rw [Prod.mk.injEq] at hn
  exact ⟨hc.2, hn.1.symm, hn.2.symm⟩

lemma lookupEntry_mem {identifier : String} {e : RateLimitEntry} {m : RateMap}
    (h : lookupEntry identifier m = some e) : (identifier, e) ∈ m := by
  induction m with
  | nil => simp [lookupEntry] at h
  | cons kv rest ih =>
    rw [lookupEntry] at h
    split_ifs at h with hk
    · injection h with h
      subst h
      exact List.mem_cons.mpr (Or.inl (by rw [← hk]))
    · exact List.mem_cons.mpr (Or.inr (ih h))

/-- C1: `parseRange` returns exactly the requested interval for every
well-formed single-range header `bytes=<start>-<end>` satisfying
`0 ≤ start ≤ end < objectSize`, a missing start defaulting to `0` and a
missing end defaulting to `objectSize - 1`; it fails (returns `none`, the
model of the 416 `RangeError` exit) exactly when the header does not match
the `bytes=(\d*)-(\d*)` grammar, or `start ≥ objectSize`, or
`end ≥ objectSize`, or `start > end`. -/
theorem parseRange_grammar_spec :
    (∀ (d1 d2 : List Char) (fs s e : Int),
        (∀ c ∈ d1, c.isDigit = true) → (∀ c ∈ d2, c.isDigit = true) →
        s = (if d1 = [] then 0 else (digitsToNat d1 : Int)) →
        e = (if d2 = [] then fs - 1 else (digitsToNat d2 : Int)) →
        0 ≤ s → s ≤ e → e < fs →
        parseRange (rangeHeaderString d1 d2) fs = some ⟨s, e⟩)
    ∧ (∀ (d1 d2 : List Char) (fs s e : Int),
        (∀ c ∈ d1, c.isDigit = true) → (∀ c ∈ d2, c.isDigit = true) →
        s = (if d1 = [] then 0 else (digitsToNat d1 : Int)) →
        e = (if d2 = [] then fs - 1 else (digitsToNat d2 : Int)) →
        (s ≥ fs ∨ e ≥ fs ∨ s > e) →
        parseRange (rangeHeaderString d1 d2) fs = none)
    ∧ (∀ (hdr : String) (fs : Int),
        findMatch hdr.data = none → parseRange hdr fs = none)
    ∧ (∀ (hdr : String) (fs : Int) (r : ByteRange),
        parseRange hdr fs = some r →
        findMatch hdr.data ≠ none ∧ 0 ≤ r.start ∧ r.start ≤ r.«end» ∧ r.«end» < fs) := by
  refine ⟨?_, ?_, ?_, ?_⟩
  · intro d1 d2 fs s e h1 h2 hs he h0 hse hef
    rw [parseRange_rangeHeaderString d1 d2 fs h1 h2]
    subst hs he
    dsimp only
    rw [if_neg (by omega)]
  · intro d1 d2 fs s e h1 h2 hs he hfail
    rw [parseRange_rangeHeaderString d1 d2 fs h1 h2]
    subst hs he
    dsimp only
    rw [if_pos hfail]
  · intro hdr fs hnone
    rw [parseRange_eq, hnone]
  · intro hdr fs r h
    refine ⟨?_, parseRange_some_bounds hdr fs r h⟩
    intro hnone
    rw [parseRange_eq, hnone] at h
    simp at h

/-- Witness for C1: the header `bytes=4-7` against object size 10 parses to
the interval 4..7. -/
theorem parseRange_grammar_spec_witness :
    parseRange (rangeHeaderString ['4'] ['7']) 10 = some ⟨4, 7⟩ :=
  parseRange_grammar_spec.1 ['4'] ['7'] 10 4 7 (by decide) (by decide)
    (by decide) (by decide) (by decide) (by decide) (by decide)

/-- C2: for every requested range with `0 ≤ start ≤ end ≤ objectSize - 1`,
every positive object size and either value of `isFirstRequest`,
`optimizeRange` returns an interval satisfying
`0 ≤ start ≤ end ≤ objectSize - 1`. -/
theorem optimizeRange_within_bounds :
    ∀ (requested : ByteRange) (objectSize : Int) (isFirstRequest : Bool),
      0 ≤ requested.start → requested.start ≤ requested.«end» →
      requested.«end» ≤ objectSize - 1 → 0 < objectSize →
      0 ≤ (optimizeRange requested objectSize isFirstRequest).start ∧
      (optimizeRange requested objectSize isFirstRequest).start ≤
        (optimizeRange requested objectSize isFirstRequest).«end» ∧
      (optimizeRange requested objectSize isFirstRequest).«end» ≤ objectSize - 1 :=
  fun r os b h0 h1 h2 h3 => optimizeRange_bounds_aux r os b h0 h1 h2 h3

/-- Witness for C2 at the requested range 0..0 on a 1-byte object. -/
theorem optimizeRange_within_bounds_witness :
    0 ≤ (optimizeRange ⟨0, 0⟩ 1 true).start ∧
    (optimizeRange ⟨0, 0⟩ 1 true).start ≤ (optimizeRange ⟨0, 0⟩ 1 true).«end» ∧
    (optimizeRange ⟨0, 0⟩ 1 true).«end» ≤ 1 - 1 :=
  optimizeRange_within_bounds ⟨0, 0⟩ 1 true (by decide) (by decide) (by decide)
    (by decide)

/-- C3: under the steady-state policy (`isFirstRequest` false, or a
requested start other than 0), `optimizeRange` keeps the requested start,
never returns an end below the requested end, never exceeds
`objectSize - 1`, and returns the request unchanged whenever the requested
end already equals `objectSize - 1`. -/
theorem optimizeRange_steady_state :
    ∀ (requested : ByteRange) (objectSize : Int) (isFirstRequest : Bool),
      (isFirstRequest = false ∨ requested.start ≠ 0) →
      requested.start ≤ requested.«end» →
      requested.«end» ≤ objectSize - 1 →
      (optimizeRange requested objectSize isFirstRequest).start = requested.start ∧
      requested.«end» ≤ (optimizeRange requested objectSize isFirstRequest).«end» ∧
      (optimizeRange requested objectSize isFirstRequest).«end» ≤ objectSize - 1 ∧
      (requested.«end» = objectSize - 1 →
        optimizeRange requested objectSize isFirstRequest = requested) :=
  fun r os b hsel h1 h2 => optimizeRange_steady_aux r os b hsel h1 h2

/-- Witness for C3 at the requested range 1..1 on a 4-byte object with
`isFirstRequest = false`. -/
theorem optimizeRange_steady_state_witness :
    (optimizeRange ⟨1, 1⟩ 4 false).start = (⟨1, 1⟩ : ByteRange).start ∧
    (⟨1, 1⟩ : ByteRange).«end» ≤ (optimizeRange ⟨1, 1⟩ 4 false).«end» ∧
    (optimizeRange ⟨1, 1⟩ 4 false).«end» ≤ 4 - 1 ∧
    ((⟨1, 1⟩ : ByteRange).«end» = 4 - 1 → optimizeRange ⟨1, 1⟩ 4 false = ⟨1, 1⟩) :=
  optimizeRange_steady_state ⟨1, 1⟩ 4 false (Or.inl rfl) (by decide) (by decide)

/-- C4 counterexample: for a 4,194,304-byte object and no Range header the
handler does not serve end byte 1048575 (it serves 1048576) and does not
choose the medium revalidatable cache policy (it chooses the immutable
partial-content policy). -/
theorem firstRequest_4MB_counterexample :
    ((streamPlan none 4194304).map StreamResult.served).map ByteRange.«end» ≠
        some 1048575 ∧
    (streamPlan none 4194304).map StreamResult.cacheControl ≠
        some "public, max-age=86400, stale-while-revalidate=3600" := by
  decide

/-- C4 amended: for a 4,194,304-byte object and no Range header the handler
applies the first-request policy in the sub-5MB tier and serves exactly
bytes 0..1048576 (1MB + 1 bytes, since the tier size is used directly as
the inclusive end index) with status 206 and Cache-Control
`public, max-age=31536000, immutable` (the partial-content branch, because
the served range is a strict prefix of the object). -/
theorem firstRequest_4MB_served :
    streamPlan none 4194304 =
      some ⟨⟨0, 1048576⟩, true, true, 206,
        "public, max-age=31536000, immutable", some (1048577, 2097153)⟩ := by
  decide

/-- C5 counterexample: for a 4,194,304-byte object and the header
`Range: bytes=2097152-2097663` the served end byte is not 2621695 (it is
2621439). -/
theorem steadyState_512B_counterexample :
    ((streamPlan (some "bytes=2097152-2097663") 4194304).map
        StreamResult.served).map ByteRange.«end» ≠ some 2621695 := by
  decide

/-- C5 amended: for a 4,194,304-byte object and the 512-byte request
`bytes=2097152-2097663`, the steady-state policy in the sub-5MB tier
(optimal chunk 512KB = 524288 bytes) expands the served range to exactly
2097152..2621439, i.e. new end = start + 524288 - 1. -/
theorem steadyState_512B_served :
    streamPlan (some "bytes=2097152-2097663") 4194304 =
      some ⟨⟨2097152, 2621439⟩, true, false, 206,
        "public, max-age=31536000, immutable", some (2621440, 3145727)⟩ := by
  decide

/-- C6: the Cache-Control policy is a pure function of
`(isFirstRequest, objectSize, isPartialContent)` equal to the three-way
priority table: short revalidatable for a first request on an object over
10MB, else long immutable for partial content, else medium revalidatable;
and every successful handler response carries exactly that policy. -/
theorem cachePolicy_matches_table :
    (∀ (isFirstRequest : Bool) (objectSize : Int) (isPartialContent : Bool),
        cacheControlOf isFirstRequest objectSize isPartialContent =
          cachePolicyTable isFirstRequest objectSize isPartialContent)
    ∧ (∀ (rangeHeader : Option String) (fileSize : Int) (r : StreamResult),
        streamPlan rangeHeader fileSize = some r →
        r.cacheControl =
          cachePolicyTable r.isFirstRequest fileSize r.isPartialContent) := by
  refine ⟨fun _ _ _ => rfl, ?_⟩
  intro h fs r hp
  cases h with
  | none =>
    simp only [streamPlan] at hp
    injection hp with hp
    subst hp
    rfl
  | some rng =>
    simp only [streamPlan] at hp
    cases hpr : parseRange rng fs with
    | none => rw [hpr] at hp; simp at hp
    | some pr =>
      rw [hpr] at hp
      simp only at hp
      injection hp with hp
      subst hp
      rfl

/-- Witness for C6 at the concrete no-Range request on a 4MB object. -/
theorem cachePolicy_matches_table_witness :
    (⟨⟨0, 1048576⟩, true, true, 206, "public, max-age=31536000, immutable",
        some (1048577, 2097153)⟩ : StreamResult).cacheControl =
      cachePolicyTable true 4194304 true :=
  cachePolicy_matches_table.2 none 4194304
    ⟨⟨0, 1048576⟩, true, true, 206, "public, max-age=31536000, immutable",
      some (1048577, 2097153)⟩ (by decide)

/-- C7: for a fresh identifier, the rate limiter admits exactly the first
30 calls whose times stay within 60 seconds of the first call and rejects
every further one without incrementing (the stored count stays capped at
30, the window end stays at first call + 60s); and once the current time
exceeds the stored reset time, the next call installs a fresh entry with
count 1 and reset time now + 60s and is admitted. -/
theorem rateLimiter_window_spec :
    (∀ (identifier : String) (t0 : Int) (ts : List Int) (m0 : RateMap),
        lookupEntry identifier m0 = none →
        (∀ t ∈ ts, t0 ≤ t ∧ t ≤ t0 + 60 * 1000) →
        (runCalls identifier (t0 :: ts) m0).1 =
          (List.range (ts.length + 1)).map (fun i => decide (i < 30)) ∧
        lookupEntry identifier (runCalls identifier (t0 :: ts) m0).2 =
          some ⟨min (ts.length + 1) 30, t0 + 60 * 1000⟩)
    ∧ (∀ (identifier : String) (now : Int) (m : RateMap) (e : RateLimitEntry),
        (m.map Prod.fst).Nodup →
        lookupEntry identifier m = some e → now > e.resetTime →
        (checkRateLimit identifier now m).1 = true ∧
        lookupEntry identifier (checkRateLimit identifier now m).2 =
          some ⟨1, now + 60 * 1000⟩) := by
  constructor
  · intro identifier t0 ts m0 hm0 hts
    have hclean : lookupEntry identifier (cleanupRateLimit t0 m0) = none :=
      lookupEntry_filter_none hm0
    simp only [runCalls]
    rw [checkRateLimit_fresh hclean]
    dsimp only
    obtain ⟨ihr, ihm⟩ := runCalls_window identifier t0 ts
      (setEntry identifier ⟨1, t0 + 60 * 1000⟩ (cleanupRateLimit t0 m0)) 1
      (le_refl 1) (by omega) (lookupEntry_setEntry_self _ _ _) hts
    constructor
    · rw [ihr, List.range_succ_eq_map, List.map_cons, List.map_map]
      congr 1
      apply List.map_congr_left
      intro i hi
      simp only [Function.comp_apply]
      apply decide_eq_decide.mpr
      constructor <;> omega
    · rw [ihm, Nat.add_comm 1 ts.length]
  · intro identifier now m e hnd hm hstale
    have hclean : lookupEntry identifier (cleanupRateLimit now m) = none := by
      apply lookupEntry_filter_stale hnd hm
      simp [hstale]
    rw [checkRateLimit_fresh hclean]
    exact ⟨rfl, lookupEntry_setEntry_self _ _ _⟩

/-- Witness for C7: two calls at times 0 and 5 from a fresh identifier are
both admitted and leave count 2; and a call at time 100000 against a stored
window that ended at time 60000 is admitted with a fresh count of 1. -/
theorem rateLimiter_window_spec_witness :
    ((runCalls "a" (0 :: [5]) []).1 =
        (List.range ([5].length + 1)).map (fun i => decide (i < 30)) ∧
      lookupEntry "a" (runCalls "a" (0 :: [5]) []).2 =
        some ⟨min ([5].length + 1) 30, 0 + 60 * 1000⟩) ∧
    ((checkRateLimit "a" 100000 [("a", ⟨5, 60000⟩)]).1 = true ∧
      lookupEntry "a" (checkRateLimit "a" 100000 [("a", ⟨5, 60000⟩)]).2 =
        some ⟨1, 100000 + 60 * 1000⟩) :=
  ⟨rateLimiter_window_spec.1 "a" 0 [5] [] (by decide) (by decide),
    rateLimiter_window_spec.2 "a" 100000 [("a", ⟨5, 60000⟩)] ⟨5, 60000⟩
      (by decide) (by decide) (by decide)⟩

/-- C8: the `GET` handler never consults the rate-limit table: its response
is identical across any two table states, the table is returned unchanged,
and no request is answered with status 429. -/
theorem handler_independent_of_rateLimit :
    ∀ (fileName : Option String) (contentLength : Option Int)
      (rangeHeader : Option String) (bodyPresent : Bool) (m1 m2 : RateMap),
      (handleGET fileName contentLength rangeHeader bodyPresent m1).1 =
        (handleGET fileName contentLength rangeHeader bodyPresent m2).1 ∧
      (handleGET fileName contentLength rangeHeader bodyPresent m1).2 = m1 ∧
      statusOf (handleGET fileName contentLength rangeHeader bodyPresent m1).1 ≠ 429 := by
  intro fn cl rh bp m1 m2
  cases fn with
  | none => exact ⟨rfl, rfl, show (400 : Nat) ≠ 429 by decide⟩
  | some f =>
    cases cl with
    | none => exact ⟨rfl, rfl, show (500 : Nat) ≠ 429 by decide⟩
    | some fs =>
      by_cases hz : fs = 0
      · subst hz
        exact ⟨rfl, rfl, show (500 : Nat) ≠ 429 by decide⟩
      · have hred : ∀ rl : RateMap,
            handleGET (some f) (some fs) rh bp rl =
              (match streamPlan rh fs with
               | none => (GetResponse.invalidRange, rl)
               | some r =>
                 if bp = true then (GetResponse.ok r, rl)
                 else (GetResponse.notFound, rl)) := by
          intro rl
          simp only [handleGET, if_neg hz]
        rw [hred m1, hred m2]
        cases hsp : streamPlan rh fs with
        | none => exact ⟨rfl, rfl, show (416 : Nat) ≠ 429 by decide⟩
        | some r =>
          cases bp with
          | false => exact ⟨rfl, rfl, show (404 : Nat) ≠ 429 by decide⟩
          | true =>
            refine ⟨rfl, rfl, ?_⟩
            rcases streamPlan_status rh fs r hsp with h | h <;> simp [statusOf, h]

/-- C9: immediately after any `checkRateLimit` call, every entry remaining
in the rate-limit map (for any identifier, not only the checked one) has a
reset time at or after the current time: the initial purge deletes every
stale entry and the call only writes entries whose reset time is in the
future. -/
theorem checkRateLimit_purges_stale :
    ∀ (identifier : String) (now : Int) (m : RateMap)
      (kv : String × RateLimitEntry),
      kv ∈ (checkRateLimit identifier now m).2 → now ≤ kv.2.resetTime := by
  intro identifier now m kv hmem
  simp only [checkRateLimit] at hmem
  cases hl : lookupEntry identifier (cleanupRateLimit now m) with
  | none =>
    rw [hl] at hmem
    dsimp only at hmem
    rcases mem_setEntry hmem with h1 | h2
    · subst h1
      dsimp only
      omega
    · exact mem_cleanup_le h2
  | some current =>
    rw [hl] at hmem
    dsimp only at hmem
    split_ifs at hmem with hw hc
    · rcases mem_setEntry hmem with h1 | h2
      · subst h1
        dsimp only
        omega
      · exact mem_cleanup_le h2
    · exact mem_cleanup_le hmem
    · rcases mem_setEntry hmem with h1 | h2
      · subst h1
        dsimp only
        omega
      · exact mem_cleanup_le h2

/-- Witness for C9: after a first call at time 0, the surviving entry's
reset time 60000 is at or after the current time 0. -/
theorem checkRateLimit_purges_stale_witness :
    (0 : Int) ≤ (("a", (⟨1, 60000⟩ : RateLimitEntry)) : String × RateLimitEntry).2.resetTime :=
  checkRateLimit_purges_stale "a" 0 [] ("a", ⟨1, 60000⟩) (by decide)

/-- C10: whenever a successful response carries the `X-Next-Range` hint
`(ns, ne)`, the hint starts right after the served end, satisfies
`served end + 1 ≤ ne ≤ objectSize - 1`, and the emitted header
`bytes=<ns>-<ne>` parses back successfully to exactly that interval against
the same object size. -/
theorem nextRange_hint_valid :
    ∀ (rangeHeader : Option String) (fileSize : Int) (r : StreamResult)
      (ns ne : Int),
      streamPlan rangeHeader fileSize = some r →
      r.nextRange = some (ns, ne) →
      ns = r.served.«end» + 1 ∧ r.served.«end» + 1 ≤ ne ∧ ne ≤ fileSize - 1 ∧
      parseRange (nextRangeHeaderValue ns ne) fileSize = some ⟨ns, ne⟩ := by
  intro h fs r ns ne hp hn
  cases h with
  | none =>
    simp only [streamPlan] at hp
    injection hp with hp
    subst hp
    have ho : optimizeRange ⟨0, fs - 1⟩ fs true =
        ⟨0, if fs < 5 * 1024 * 1024 then min (1024 * 1024) (fs - 1)
            else if fs < 15 * 1024 * 1024 then min (2 * 1024 * 1024) (fs - 1)
            else min (3 * 1024 * 1024) (fs - 1)⟩ := by
      simp only [optimizeRange]
      exact if_pos ⟨by trivial, by trivial⟩
    rw [ho] at hn ⊢
    obtain ⟨hlt, hns, hne⟩ := mkResult_nextRange_cond _ _ _ _ _ _ _ hn
    try dsimp only at hlt hns hne
    subst hns hne
    simp only [mkResult]
    try dsimp only
    split_ifs at hlt ⊢ <;>
      refine ⟨by first | rfl | trivial, by omega, by omega,
        parseRange_nextHeader _ _ _ (by omega) (by omega) (by omega)⟩
  | some rng =>
    simp only [streamPlan] at hp
    cases hpr : parseRange rng fs with
    | none => rw [hpr] at hp; simp at hp
    | some pr =>
      rw [hpr] at hp
      simp only at hp
      injection hp with hp
      subst hp
      obtain ⟨hb0, hb1, hb2⟩ := parseRange_some_bounds rng fs pr hpr
      obtain ⟨ho0, ho1, ho2⟩ :=
        optimizeRange_bounds_aux pr fs (decide (pr.start = 0)) hb0 hb1
          (by omega) (by omega)
      obtain ⟨hlt, hns, hne⟩ := mkResult_nextRange_cond _ _ _ _ _ _ _ hn
      subst hns hne
      simp only [mkResult]
      refine ⟨by first | rfl | trivial, by omega, by omega,
        parseRange_nextHeader _ _ _ (by omega) (by omega) (by omega)⟩

/-- Witness for C10 at the concrete no-Range request on a 4MB object: the
hint 1048577..2097153 immediately follows the served end 1048576 and its
header round-trips through the parser. -/
theorem nextRange_hint_valid_witness :
    (1048577 : Int) =
        (⟨⟨0, 1048576⟩, true, true, 206, "public, max-age=31536000, immutable",
          some (1048577, 2097153)⟩ : StreamResult).served.«end» + 1 ∧
    (⟨⟨0, 1048576⟩, true, true, 206, "public, max-age=31536000, immutable",
        some (1048577, 2097153)⟩ : StreamResult).served.«end» + 1 ≤ 2097153 ∧
    (2097153 : Int) ≤ 4194304 - 1 ∧
    parseRange (nextRangeHeaderValue 1048577 2097153) 4194304 =
      some ⟨1048577, 2097153⟩ :=
  nextRange_hint_valid none 4194304
    ⟨⟨0, 1048576⟩, true, true, 206, "public, max-age=31536000, immutable",
      some (1048577, 2097153)⟩ 1048577 2097153 (by decide) rfl

end AudioStream
